import Mathlib

/-!
Verification of the journalled key/value store of this repository
(`eth/db/journal.py`: `Journal` + `JournalDB`, together with the diff value
object and the in-memory backing store `MemoryDB`), against the properties
stated in its specification and exercised by
`tests/database/test_journal_db.py`.

The implementation module `eth/db/journal.py` itself is not present in the
source tree; only its test suite is.  The definitions below are therefore
modelled from the specification (layer stack, value slots, record / discard /
commit / flatten / diff / persist) and are exercised on the concrete scenarios
of the test suite.  Keys, values and changeset identifiers are modelled as
natural numbers: the store treats them as opaque tokens with decidable
equality, and none of the verified properties depends on their byte structure.
-/

set_option autoImplicit false

namespace JournalSpec

abbrev Key := Nat
abbrev Value := Nat
abbrev ChangesetId := Nat

/-- Modelled from the spec: a value slot inside a layer is either `set v`
(the key has value `v` in this layer) or `deleted` (an explicit tombstone
overriding anything below, including the backing store).  Absence of the key
from the layer means "layer silent". -/
inductive ValueSlot where
  | set (v : Value)
  | deleted
deriving DecidableEq

/-- A layer's data: an association log from keys to value slots, most recent
write first (writes are consed on the front, lookup takes the first hit). -/
abbrev LayerData := List (Key × ValueSlot)

/-- First-hit association-list lookup, the dictionary semantics used for
layers, diffs and the in-memory backing store. -/
def alookup {α : Type} (k : Key) : List (Key × α) → Option α
  | [] => none
  | p :: rest => if p.1 = k then some p.2 else alookup k rest

/-- Modelled from the spec: the in-memory backing store (`MemoryDB`), a plain
key/value dictionary. -/
structure Store where
  kv : List (Key × Value)
deriving DecidableEq

def Store.get (s : Store) (k : Key) : Option Value :=
  alookup k s.kv

def Store.set (s : Store) (k : Key) (v : Value) : Store :=
  ⟨(k, v) :: s.kv⟩

def Store.del (s : Store) (k : Key) : Store :=
  ⟨s.kv.filter (fun p => decide (p.1 ≠ k))⟩

def Store.empty : Store := ⟨[]⟩

/-- Modelled from the spec: the layer stack (`Journal`).  `base` is the
always-present bottom layer carrying no changeset identifier; `changesets`
holds the layers above it, newest (top) first, each tagged with its changeset
identifier.  (The source keeps an insertion-ordered mapping from changeset id
to layer data; this is the explicit-sequence representation the spec's design
notes prescribe.) -/
structure Journal where
  base : LayerData
  changesets : List (ChangesetId × LayerData)
deriving DecidableEq

def Journal.empty : Journal := ⟨[], []⟩

def Journal.changesetIds (j : Journal) : List ChangesetId :=
  j.changesets.map Prod.fst

/-- Modelled from the spec: membership test against currently tracked
changeset identifiers only. -/
def Journal.hasChangeset (j : Journal) (id : ChangesetId) : Bool :=
  decide (id ∈ j.changesetIds)

inductive JournalError where
  | duplicateChangeset
  | changesetNotFound
deriving DecidableEq

def pushLayer (j : Journal) (c : ChangesetId) : Journal :=
  { j with changesets := (c, []) :: j.changesets }

/-- Modelled from the spec: `record(id)` fails with a duplicate-changeset
error if `id` is already tracked, otherwise pushes a new empty layer tagged
with `id`. -/
def Journal.record (j : Journal) (id : ChangesetId) : Except JournalError Journal :=
  if j.hasChangeset id then .error .duplicateChangeset
  else .ok (pushLayer j id)

/-- Write a value slot for `k` into the current top layer (the base layer when
no changeset has been recorded). -/
def Journal.writeSlot (j : Journal) (k : Key) (s : ValueSlot) : Journal :=
  match j.changesets with
  | [] => { j with base := (k, s) :: j.base }
  | (i, d) :: rest => { j with changesets := (i, (k, s) :: d) :: rest }

/-- Modelled from the spec: `set` writes a `Set` slot into the top layer. -/
def Journal.set (j : Journal) (k : Key) (v : Value) : Journal :=
  j.writeSlot k (.set v)

/-- Modelled from the spec: `delete` writes a `Deleted` tombstone into the
top layer (a tombstone entry, not a removal of the key). -/
def Journal.delete (j : Journal) (k : Key) : Journal :=
  j.writeSlot k .deleted

/-- Scan layers from top (head) to bottom; the first layer holding any entry
for the key determines the answer. -/
def scanLayers (k : Key) : List (ChangesetId × LayerData) → Option ValueSlot
  | [] => none
  | (_, d) :: rest =>
    match alookup k d with
    | some s => some s
    | none => scanLayers k rest

/-- Modelled from the spec: `get` on the layer stack — scan layers top to
bottom, then the base layer; `Set v` answers `v`, a tombstone answers
"deleted" and stops the scan, silence everywhere reports no entry. -/
def Journal.getSlot (j : Journal) (k : Key) : Option ValueSlot :=
  match scanLayers k j.changesets with
  | some s => some s
  | none => alookup k j.base

/-- The whole stack flattened into one write log, newest write first.  This is
the view in which lookup agrees with the top-to-bottom layer scan. -/
def Journal.flatData (j : Journal) : LayerData :=
  (j.changesets.map Prod.snd).flatten ++ j.base

/-- Drop stack entries from the top through the first layer tagged `id`
(inclusive), leaving the layers below it. -/
def dropThrough (id : ChangesetId) :
    List (ChangesetId × LayerData) → List (ChangesetId × LayerData)
  | [] => []
  | (i, _) :: rest => if i = id then rest else dropThrough id rest

/-- Take stack entries from the top through the first layer tagged `id`
(inclusive): the layers `commit`/`discard` act on. -/
def takeThrough (id : ChangesetId) :
    List (ChangesetId × LayerData) → List (ChangesetId × LayerData)
  | [] => []
  | (i, d) :: rest => if i = id then [(i, d)] else (i, d) :: takeThrough id rest

/-- Modelled from the spec: `discard(id)` fails with a not-found error if `id`
is untracked, otherwise removes `id`'s layer and every layer above it. -/
def Journal.discard (j : Journal) (id : ChangesetId) : Except JournalError Journal :=
  if j.hasChangeset id then .ok ⟨j.base, dropThrough id j.changesets⟩
  else .error .changesetNotFound

/-- Modelled from the spec: `commit(id)` fails with a not-found error if `id`
is untracked, otherwise merges `id`'s layer and every layer above it into the
layer immediately below (oldest-to-newest, last write wins — in the
newest-first log this is plain concatenation), untracking the merged ids. -/
def Journal.commit (j : Journal) (id : ChangesetId) : Except JournalError Journal :=
  if j.hasChangeset id then
    let merged := ((takeThrough id j.changesets).map Prod.snd).flatten
    match dropThrough id j.changesets with
    | [] => .ok ⟨merged ++ j.base, []⟩
    | (i, d) :: rest => .ok ⟨j.base, (i, merged ++ d) :: rest⟩
  else .error .changesetNotFound

/-- Modelled from the spec: `flatten()` collapses every layer into the base
layer; no identifiers remain tracked; the backing store is not involved. -/
def Journal.flatten (j : Journal) : Journal :=
  ⟨j.flatData, []⟩

/-- A diff: the net per-key value slot of the whole stack, an ephemeral
key → slot mapping. -/
abbrev Diff := List (Key × ValueSlot)

def Journal.diffKeys (j : Journal) : List Key :=
  (j.flatData.map Prod.fst).dedup

/-- Modelled from the spec: `diff()` computes, without mutating the stack, the
net value slot per key (last write wins across all layers), limited to the
keys the stack has touched. -/
def Journal.diff (j : Journal) : Diff :=
  j.diffKeys.filterMap (fun k => (alookup k j.flatData).map (fun s => (k, s)))

/-- Modelled from the spec: `apply_to` replays a diff against any key/value
store — `Set v` becomes a store `set`, `Deleted` becomes a store `delete`
(tolerating an absent key). -/
def Diff.applyTo (d : Diff) (s : Store) : Store :=
  d.foldl
    (fun acc p =>
      match p.2 with
      | .set v => acc.set p.1 v
      | .deleted => acc.del p.1)
    s

/-- Modelled from the spec: the journaled store façade — a layer stack over a
wrapped backing store. -/
structure JournalDB where
  journal : Journal
  wrapped : Store
deriving DecidableEq

/-- Modelled from the spec: `get` delegates to the layer stack; a tombstone is
authoritative ("not found" without consulting the backing store); silence
falls through to the backing store. -/
def JournalDB.get (db : JournalDB) (k : Key) : Option Value :=
  match db.journal.getSlot k with
  | some (.set v) => some v
  | some .deleted => none
  | none => db.wrapped.get k

/-- Modelled from the spec: `exists` is true iff `get` would succeed. -/
def JournalDB.existsKey (db : JournalDB) (k : Key) : Bool :=
  (db.get k).isSome

def JournalDB.set (db : JournalDB) (k : Key) (v : Value) : JournalDB :=
  { db with journal := db.journal.set k v }

def JournalDB.delete (db : JournalDB) (k : Key) : JournalDB :=
  { db with journal := db.journal.delete k }

def JournalDB.record (db : JournalDB) (id : ChangesetId) : Except JournalError JournalDB :=
  (db.journal.record id).map (fun j => { db with journal := j })

def JournalDB.discard (db : JournalDB) (id : ChangesetId) : Except JournalError JournalDB :=
  (db.journal.discard id).map (fun j => { db with journal := j })

def JournalDB.commit (db : JournalDB) (id : ChangesetId) : Except JournalError JournalDB :=
  (db.journal.commit id).map (fun j => { db with journal := j })

def JournalDB.hasChangeset (db : JournalDB) (id : ChangesetId) : Bool :=
  db.journal.hasChangeset id

def JournalDB.flatten (db : JournalDB) : JournalDB :=
  { db with journal := db.journal.flatten }

def JournalDB.diff (db : JournalDB) : Diff :=
  db.journal.diff

/-- Modelled from the spec: `persist()` computes the diff, applies it to the
backing store, and resets the stack to a single empty base layer. -/
def JournalDB.persist (db : JournalDB) : JournalDB :=
  ⟨Journal.empty, Diff.applyTo db.journal.diff db.wrapped⟩

/-- Modelled from the spec: the mapping-style delete of the journaled store
(the Python `__delitem__`, whose implementation module is missing from the
tree) checks existence first — it raises a key error when the key is absent
from the layers and the backing store, and writes a tombstone otherwise, as
the test suite exercises it. -/
def JournalDB.delItem (db : JournalDB) (k : Key) : Except Unit JournalDB :=
  if db.existsKey k then .ok (db.delete k) else .error ()

/-- Mapping-style delete with the key error suppressed, the way the test
suite's property driver issues deletions (`del db[k]` under `except KeyError`). -/
def JournalDB.delTolerant (db : JournalDB) (k : Key) : JournalDB :=
  match db.delItem k with
  | .ok db' => db'
  | .error _ => db

/-- One step of the test suite's operation language: a `set`, a spec-level
`delete`, a tolerated mapping-style delete, or a `record` (skipped when the
supplied identifier collides, as an auto-generated one never does). -/
inductive Op where
  | setKV (k : Key) (v : Value)
  | del (k : Key)
  | delMapping (k : Key)
  | record (id : ChangesetId)
deriving DecidableEq

def applyOp (db : JournalDB) : Op → JournalDB
  | .setKV k v => db.set k v
  | .del k => db.delete k
  | .delMapping k => db.delTolerant k
  | .record id =>
    match db.record id with
    | .ok db' => db'
    | .error _ => db

def applyOps (ops : List Op) (db : JournalDB) : JournalDB :=
  ops.foldl applyOp db

/-- A freshly constructed journaled store over an initially empty backing
store. -/
def freshDB : JournalDB := ⟨Journal.empty, Store.empty⟩

/-- Commit the oldest tracked changeset (the bottom tagged layer); leaves the
journal unchanged when no changeset is tracked. -/
def commitOldest (j : Journal) : Journal :=
  match j.changesets.getLast? with
  | none => j
  | some (id, _) =>
    match j.commit id with
    | .ok j' => j'
    | .error _ => j

/-- Repeatedly commit the oldest tracked changeset until none remain (the
fuel argument bounds the number of rounds). -/
def commitAll : Nat → Journal → Journal
  | 0, j => j
  | n + 1, j => if j.changesets.isEmpty then j else commitAll n (commitOldest j)

/-- The spec's description of `flatten()`: repeatedly commit the oldest
tracked changeset until none remain. -/
def flattenSpec (j : Journal) : Journal :=
  commitAll j.changesets.length j

/-- The net effect of an optional value slot on an optional backing value:
`Set v` answers `v`, a tombstone answers nothing, silence defers. -/
def slotApply (o : Option ValueSlot) (w : Option Value) : Option Value :=
  match o with
  | some (.set v) => some v
  | some .deleted => none
  | none => w

/-! ### Basic lookup lemmas -/

@[simp]
theorem alookup_nil {α : Type} (k : Key) : alookup (α := α) k [] = none := rfl

@[simp]
theorem alookup_cons {α : Type} (k : Key) (p : Key × α) (l : List (Key × α)) :
    alookup k (p :: l) = if p.1 = k then some p.2 else alookup k l := rfl

theorem alookup_cons_mk {α : Type} (k a : Key) (b : α) (l : List (Key × α)) :
    alookup k ((a, b) :: l) = if a = k then some b else alookup k l := rfl

theorem alookup_append {α : Type} (k : Key) (l₁ l₂ : List (Key × α)) :
    alookup k (l₁ ++ l₂) =
      match alookup k l₁ with
      | some v => some v
      | none => alookup k l₂ := by
  induction l₁ with
  | nil => simp
  | cons p t ih =>
    by_cases h : p.1 = k <;> simp [h, ih]

theorem alookup_isSome_iff {α : Type} (k : Key) (l : List (Key × α)) :
    (alookup k l).isSome = true ↔ k ∈ l.map Prod.fst := by
  induction l with
  | nil => simp
  | cons p t ih =>
    by_cases h : p.1 = k
    · simp [h]
    · simp only [alookup_cons, if_neg h, List.map_cons, List.mem_cons, ih]
      constructor
      · exact Or.inr
      · rintro (hm | hm)
        · exact absurd hm.symm h
        · exact hm

theorem alookup_eq_none_of_not_mem {α : Type} {k : Key} {l : List (Key × α)}
    (h : k ∉ l.map Prod.fst) : alookup k l = none := by
  cases hl : alookup k l with
  | none => rfl
  | some v =>
    exact absurd ((alookup_isSome_iff k l).mp (by simp [hl])) h

/-! ### Store lemmas -/

theorem Store.get_set (s : Store) (k k' : Key) (v : Value) :
    (s.set k v).get k' = if k = k' then some v else s.get k' := by
  simp [Store.set, Store.get]

theorem alookup_filterNe {α : Type} (k k' : Key) (l : List (Key × α)) :
    alookup k' (l.filter (fun p => decide (p.1 ≠ k))) =
      if k = k' then none else alookup k' l := by
  induction l with
  | nil => simp
  | cons p t ih =>
    rcases p with ⟨a, b⟩
    by_cases hp : a = k
    · have h1 : List.filter (fun p => decide (p.1 ≠ k)) ((a, b) :: t) =
          List.filter (fun p => decide (p.1 ≠ k)) t := by
        simp [List.filter_cons, hp]
      rw [h1, ih]
      by_cases hk : k = k'
      · simp [hk]
      · have hak : ¬ a = k' := fun h => hk (hp.symm.trans h)
        rw [alookup_cons_mk, if_neg hak, if_neg hk]
    · have h1 : List.filter (fun p => decide (p.1 ≠ k)) ((a, b) :: t) =
          (a, b) :: List.filter (fun p => decide (p.1 ≠ k)) t := by
        simp [List.filter_cons, hp]
      rw [h1, alookup_cons_mk, alookup_cons_mk]
      by_cases hpk : a = k'
      · have hk : ¬ k = k' := fun h => hp (hpk.trans h.symm)
        rw [if_pos hpk, if_pos hpk, if_neg hk]
      · rw [if_neg hpk, if_neg hpk, ih]

theorem Store.get_del (s : Store) (k k' : Key) :
    (s.del k).get k' = if k = k' then none else s.get k' := by
  unfold Store.del Store.get
  exact alookup_filterNe k k' s.kv

@[simp]
theorem Store.get_empty (k : Key) : Store.empty.get k = none := rfl

/-! ### Flattened-view lemmas -/

theorem getSlot_eq_flat (j : Journal) (k : Key) :
    j.getSlot k = alookup k j.flatData := by
  unfold Journal.getSlot Journal.flatData
  induction j.changesets with
  | nil => simp [scanLayers]
  | cons p t ih =>
    simp only [List.map_cons, List.flatten_cons, List.append_assoc, scanLayers]
    rw [alookup_append]
    cases alookup k p.2 with
    | some s => simp
    | none => simpa using ih

theorem flatData_writeSlot (j : Journal) (k : Key) (s : ValueSlot) :
    (j.writeSlot k s).flatData = (k, s) :: j.flatData := by
  unfold Journal.writeSlot Journal.flatData
  cases j.changesets with
  | nil => simp
  | cons p t => cases p; simp

theorem getSlot_writeSlot (j : Journal) (k k' : Key) (s : ValueSlot) :
    (j.writeSlot k s).getSlot k' = if k = k' then some s else j.getSlot k' := by
  rw [getSlot_eq_flat, getSlot_eq_flat, flatData_writeSlot]
  simp

/-! ### takeThrough / dropThrough lemmas -/

theorem takeThrough_append_dropThrough (id : ChangesetId)
    (l : List (ChangesetId × LayerData)) :
    takeThrough id l ++ dropThrough id l = l := by
  induction l with
  | nil => rfl
  | cons p t ih =>
    cases p with
    | mk i d =>
      by_cases h : i = id <;> simp [takeThrough, dropThrough, h, ih]

theorem dropThrough_notMem (c : ChangesetId) (d : LayerData)
    (rest : List (ChangesetId × LayerData)) :
    ∀ pre : List (ChangesetId × LayerData), c ∉ pre.map Prod.fst →
      dropThrough c (pre ++ (c, d) :: rest) = rest := by
  intro pre
  induction pre with
  | nil => intro _; simp [dropThrough]
  | cons p t ih =>
    rcases p with ⟨i, dd⟩
    intro h
    simp only [List.map_cons, List.mem_cons] at h
    push_neg at h
    have hne : ¬ i = c := fun hic => h.1 hic.symm
    simpa [dropThrough, hne] using ih h.2

theorem hasChangeset_iff (j : Journal) (id : ChangesetId) :
    j.hasChangeset id = true ↔ id ∈ j.changesetIds := by
  simp [Journal.hasChangeset]

theorem hasChangeset_false_iff (j : Journal) (id : ChangesetId) :
    j.hasChangeset id = false ↔ id ∉ j.changesetIds := by
  simp [Journal.hasChangeset]

/-! ### Diff application lemmas -/

theorem get_eq_slotApply (db : JournalDB) (k : Key) :
    db.get k = slotApply (db.journal.getSlot k) (db.wrapped.get k) := by
  cases h : db.journal.getSlot k with
  | none => simp [JournalDB.get, slotApply, h]
  | some s => cases s <;> simp [JournalDB.get, slotApply, h]

theorem applyTo_cons (a : Key) (s : ValueSlot) (d : Diff) (st : Store) :
    Diff.applyTo ((a, s) :: d) st =
      Diff.applyTo d (match s with | .set v => st.set a v | .deleted => st.del a) := rfl

theorem applyTo_get (d : Diff) :
    ∀ (st : Store) (k : Key), (d.map Prod.fst).Nodup →
      (Diff.applyTo d st).get k = slotApply (alookup k d) (st.get k) := by
  induction d with
  | nil => intro st k _; simp [Diff.applyTo, slotApply]
  | cons p t ih =>
    rcases p with ⟨a, s⟩
    intro st k hnd
    simp only [List.map_cons, List.nodup_cons] at hnd
    rw [applyTo_cons, ih _ k hnd.2, alookup_cons_mk]
    by_cases hak : a = k
    · subst hak
      have ht : alookup a t = none := alookup_eq_none_of_not_mem hnd.1
      rw [ht, if_pos rfl]
      cases s with
      | set v => simp [slotApply, Store.get_set]
      | deleted => simp [slotApply, Store.get_del]
    · rw [if_neg hak]
      have hst :
          (match s with | ValueSlot.set v => st.set a v | ValueSlot.deleted => st.del a).get k
            = st.get k := by
        cases s with
        | set v => simp [Store.get_set, hak]
        | deleted => simp [Store.get_del, hak]
      rw [hst]

theorem alookup_filterMap_keys {α : Type} (m : Key → Option α) (k : Key) :
    ∀ ks : List Key,
      alookup k (ks.filterMap (fun k' => (m k').map (fun s => (k', s)))) =
        if k ∈ ks then m k else none := by
  intro ks
  induction ks with
  | nil => simp
  | cons a t ih =>
    by_cases hak : a = k
    · subst hak
      cases hm : m a with
      | none => simp [List.filterMap_cons, hm, ih]
      | some s => simp [List.filterMap_cons, hm]
    · have hka : ¬ k = a := fun h => hak h.symm
      cases hm : m a with
      | none =>
        rw [List.filterMap_cons]
        simp only [hm, Option.map_none']
        rw [ih]
        simp [List.mem_cons, hka]
      | some s =>
        rw [List.filterMap_cons]
        simp only [hm, Option.map_some']
        rw [alookup_cons_mk, if_neg hak, ih]
        simp [List.mem_cons, hka]

theorem map_fst_filterMap_keys {α : Type} (m : Key → Option α) :
    ∀ ks : List Key, (∀ x ∈ ks, (m x).isSome) →
      (ks.filterMap (fun k' => (m k').map (fun s => (k', s)))).map Prod.fst = ks := by
  intro ks
  induction ks with
  | nil => intro _; simp
  | cons a t ih =>
    intro h
    have ha : (m a).isSome := h a (List.mem_cons_self a t)
    cases hm : m a with
    | none => rw [hm] at ha; simp at ha
    | some s =>
      rw [List.filterMap_cons]
      simp only [hm, Option.map_some', List.map_cons]
      rw [ih (fun x hx => h x (List.mem_cons_of_mem a hx))]

theorem diffKeys_mem_iff (j : Journal) (k : Key) :
    k ∈ j.diffKeys ↔ (alookup k j.flatData).isSome := by
  unfold Journal.diffKeys
  rw [List.mem_dedup]
  exact (alookup_isSome_iff k j.flatData).symm

theorem diff_map_fst (j : Journal) : j.diff.map Prod.fst = j.diffKeys := by
  unfold Journal.diff
  exact map_fst_filterMap_keys _ _ (fun x hx => (diffKeys_mem_iff j x).mp hx)

theorem diff_keys_nodup (j : Journal) : (j.diff.map Prod.fst).Nodup := by
  rw [diff_map_fst]
  exact List.nodup_dedup _

theorem alookup_diff (j : Journal) (k : Key) :
    alookup k j.diff = alookup k j.flatData := by
  unfold Journal.diff
  rw [alookup_filterMap_keys]
  by_cases h : k ∈ j.diffKeys
  · rw [if_pos h]
  · rw [if_neg h]
    rcases hl : alookup k j.flatData with _ | s
    · rfl
    · exact absurd ((diffKeys_mem_iff j k).mpr (by simp [hl])) h

theorem persist_wrapped_get (db : JournalDB) (k : Key) :
    (db.persist).wrapped.get k = db.get k := by
  show (Diff.applyTo db.journal.diff db.wrapped).get k = db.get k
  rw [applyTo_get _ _ _ (diff_keys_nodup db.journal), alookup_diff,
    ← getSlot_eq_flat, ← get_eq_slotApply]

/-! ### Operation-sequence lemmas -/

theorem applyOp_wrapped (db : JournalDB) (op : Op) :
    (applyOp db op).wrapped = db.wrapped := by
  cases op with
  | setKV k v => rfl
  | del k => rfl
  | delMapping k =>
    simp only [applyOp, JournalDB.delTolerant, JournalDB.delItem]
    by_cases h : db.existsKey k <;> simp [h, JournalDB.delete]
  | record id =>
    simp only [applyOp, JournalDB.record, Journal.record]
    by_cases h : db.journal.hasChangeset id <;> simp [h, Except.map]

theorem applyOps_wrapped (ops : List Op) :
    ∀ db : JournalDB, (applyOps ops db).wrapped = db.wrapped := by
  induction ops with
  | nil => intro db; rfl
  | cons op t ih =>
    intro db
    show (applyOps t (applyOp db op)).wrapped = db.wrapped
    rw [ih, applyOp_wrapped]

theorem writeSlot_shape (b0 : LayerData) (cs0 : List (ChangesetId × LayerData))
    (c : ChangesetId) (pre : List (ChangesetId × LayerData)) (d : LayerData)
    (k : Key) (s : ValueSlot) :
    ∃ pre' d', pre'.map Prod.fst = pre.map Prod.fst ∧
      Journal.writeSlot ⟨b0, pre ++ (c, d) :: cs0⟩ k s = ⟨b0, pre' ++ (c, d') :: cs0⟩ := by
  cases pre with
  | nil => exact ⟨[], (k, s) :: d, rfl, rfl⟩
  | cons p pt =>
    rcases p with ⟨i, dd⟩
    exact ⟨(i, (k, s) :: dd) :: pt, d, by simp, rfl⟩

theorem applyOp_shape (w : Store) (c : ChangesetId) (b0 : LayerData)
    (cs0 : List (ChangesetId × LayerData)) (pre : List (ChangesetId × LayerData))
    (d : LayerData) (hpre : c ∉ pre.map Prod.fst) (op : Op) :
    ∃ pre' d', c ∉ pre'.map Prod.fst ∧
      applyOp ⟨⟨b0, pre ++ (c, d) :: cs0⟩, w⟩ op = ⟨⟨b0, pre' ++ (c, d') :: cs0⟩, w⟩ := by
  have hmemc : c ∈ (Journal.mk b0 (pre ++ (c, d) :: cs0)).changesetIds := by
    simp [Journal.changesetIds]
  cases op with
  | setKV k v =>
    obtain ⟨pre', d', hids, heq⟩ := writeSlot_shape b0 cs0 c pre d k (.set v)
    exact ⟨pre', d', hids ▸ hpre, by
      show JournalDB.mk (Journal.writeSlot _ k (.set v)) w = _
      rw [heq]⟩
  | del k =>
    obtain ⟨pre', d', hids, heq⟩ := writeSlot_shape b0 cs0 c pre d k .deleted
    exact ⟨pre', d', hids ▸ hpre, by
      show JournalDB.mk (Journal.writeSlot _ k .deleted) w = _
      rw [heq]⟩
  | delMapping k =>
    show ∃ pre' d', _ ∧ JournalDB.delTolerant _ k = _
    rw [JournalDB.delTolerant, JournalDB.delItem]
    by_cases h : JournalDB.existsKey ⟨⟨b0, pre ++ (c, d) :: cs0⟩, w⟩ k
    · obtain ⟨pre', d', hids, heq⟩ := writeSlot_shape b0 cs0 c pre d k .deleted
      refine ⟨pre', d', hids ▸ hpre, ?_⟩
      rw [if_pos h]
      show JournalDB.mk (Journal.writeSlot _ k .deleted) w = _
      rw [heq]
    · exact ⟨pre, d, hpre, by rw [if_neg h]⟩
  | record id =>
    by_cases h : Journal.hasChangeset ⟨b0, pre ++ (c, d) :: cs0⟩ id
    · refine ⟨pre, d, hpre, ?_⟩
      simp [applyOp, JournalDB.record, Journal.record, h, Except.map]
    · refine ⟨(id, []) :: pre, d, ?_, ?_⟩
      · have hne : id ≠ c := by
          intro he
          subst he
          exact absurd ((hasChangeset_iff _ id).mpr hmemc) h
        simp only [List.map_cons, List.mem_cons]
        rintro (hc | hc)
        · exact hne hc.symm
        · exact hpre hc
      · simp [applyOp, JournalDB.record, Journal.record, h, pushLayer, Except.map]

theorem applyOps_shape (w : Store) (c : ChangesetId) (b0 : LayerData)
    (cs0 : List (ChangesetId × LayerData)) :
    ∀ (ops : List Op) (pre : List (ChangesetId × LayerData)) (d : LayerData),
      c ∉ pre.map Prod.fst →
      ∃ pre' d', c ∉ pre'.map Prod.fst ∧
        applyOps ops ⟨⟨b0, pre ++ (c, d) :: cs0⟩, w⟩ = ⟨⟨b0, pre' ++ (c, d') :: cs0⟩, w⟩ := by
  intro ops
  induction ops with
  | nil => exact fun pre d hpre => ⟨pre, d, hpre, rfl⟩
  | cons op t ih =>
    intro pre d hpre
    obtain ⟨pre1, d1, hp1, heq1⟩ := applyOp_shape w c b0 cs0 pre d hpre op
    obtain ⟨pre2, d2, hp2, heq2⟩ := ih pre1 d1 hp1
    refine ⟨pre2, d2, hp2, ?_⟩
    show applyOps t (applyOp ⟨⟨b0, pre ++ (c, d) :: cs0⟩, w⟩ op) = _
    rw [heq1]
    exact heq2

/-! ### Commit lemmas -/

theorem diff_congr {j₁ j₂ : Journal} (h : j₁.flatData = j₂.flatData) :
    j₁.diff = j₂.diff := by
  unfold Journal.diff Journal.diffKeys
  rw [h]

theorem take_drop_ids (id : ChangesetId) (l : List (ChangesetId × LayerData)) :
    (takeThrough id l).map Prod.fst ++ (dropThrough id l).map Prod.fst = l.map Prod.fst := by
  rw [← List.map_append, takeThrough_append_dropThrough]

theorem id_mem_takeThrough (id : ChangesetId) (l : List (ChangesetId × LayerData))
    (h : id ∈ l.map Prod.fst) : id ∈ (takeThrough id l).map Prod.fst := by
  induction l with
  | nil => simp at h
  | cons p t ih =>
    rcases p with ⟨i, dd⟩
    by_cases hi : i = id
    · simp [takeThrough, hi]
    · simp only [List.map_cons, List.mem_cons] at h
      rcases h with h | h
      · exact absurd h.symm hi
      · simp only [takeThrough, if_neg hi, List.map_cons, List.mem_cons]
        exact Or.inr (ih h)

theorem commit_ok (j : Journal) (id : ChangesetId) (h : j.hasChangeset id = true) :
    ∃ j', j.commit id = Except.ok j' ∧
      j'.flatData = j.flatData ∧
      j'.changesetIds = (dropThrough id j.changesets).map Prod.fst ∧
      j'.base = (match dropThrough id j.changesets with
        | [] => ((takeThrough id j.changesets).map Prod.snd).flatten ++ j.base
        | _ :: _ => j.base) := by
  have hsplit : takeThrough id j.changesets ++ dropThrough id j.changesets = j.changesets :=
    takeThrough_append_dropThrough id j.changesets
  cases hdrop : dropThrough id j.changesets with
  | nil =>
    have hcs : j.changesets = takeThrough id j.changesets := by
      nth_rewrite 1 [← takeThrough_append_dropThrough id j.changesets]
      rw [hdrop, List.append_nil]
    refine ⟨⟨((takeThrough id j.changesets).map Prod.snd).flatten ++ j.base, []⟩, ?_, ?_, ?_, ?_⟩
    · simp only [Journal.commit, h, if_true, hdrop]
    · unfold Journal.flatData
      conv_rhs => rw [hcs]
      simp
    · simp [Journal.changesetIds, hdrop]
    · simp [hdrop]
  | cons p rest =>
    rcases p with ⟨i, dd⟩
    refine ⟨⟨j.base,
      (i, ((takeThrough id j.changesets).map Prod.snd).flatten ++ dd) :: rest⟩, ?_, ?_, ?_, ?_⟩
    · simp only [Journal.commit, h, if_true, hdrop]
    · unfold Journal.flatData
      conv_rhs => rw [← hsplit, hdrop]
      simp [List.append_assoc]
    · simp [Journal.changesetIds, hdrop]
    · simp [hdrop]

theorem takeDrop_disjoint (j : Journal) (id : ChangesetId)
    (hnd : j.changesetIds.Nodup) :
    ∀ x ∈ (takeThrough id j.changesets).map Prod.fst,
      x ∉ (dropThrough id j.changesets).map Prod.fst := by
  have h := hnd
  unfold Journal.changesetIds at h
  rw [← take_drop_ids id j.changesets] at h
  exact fun x hx => (List.nodup_append.mp h).2.2 hx

/-! ### getLast? helpers -/

theorem mem_of_getLastEq {α : Type} {l : List α} {p : α}
    (h : l.getLast? = some p) : p ∈ l := by
  have hp : p ∈ l.getLast? := by simp [h, Option.mem_def]
  obtain ⟨hne, heq⟩ := List.mem_getLast?_eq_getLast hp
  exact heq ▸ List.getLast_mem hne

theorem takeThrough_cons_ne (id i : ChangesetId) (dd : LayerData)
    (t : List (ChangesetId × LayerData)) (h : ¬ i = id) :
    takeThrough id ((i, dd) :: t) = (i, dd) :: takeThrough id t := by
  simp [takeThrough, h]

theorem dropThrough_cons_ne (id i : ChangesetId) (dd : LayerData)
    (t : List (ChangesetId × LayerData)) (h : ¬ i = id) :
    dropThrough id ((i, dd) :: t) = dropThrough id t := by
  simp [dropThrough, h]

theorem takeThrough_getLast :
    ∀ (l : List (ChangesetId × LayerData)) (p : ChangesetId × LayerData),
      (l.map Prod.fst).Nodup → l.getLast? = some p →
      takeThrough p.1 l = l ∧ dropThrough p.1 l = [] := by
  intro l
  induction l with
  | nil => intro p _ hl; simp at hl
  | cons a t ih =>
    intro p hnd hl
    rcases a with ⟨i, dd⟩
    cases t with
    | nil =>
      simp only [List.getLast?_singleton, Option.some.injEq] at hl
      subst hl
      simp [takeThrough, dropThrough]
    | cons b t' =>
      have hl' : (b :: t').getLast? = some p := by
        rwa [List.getLast?_cons_cons] at hl
      have hmem : p ∈ b :: t' := mem_of_getLastEq hl'
      simp only [List.map_cons, List.nodup_cons] at hnd
      have hne : ¬ i = p.1 := by
        intro he
        exact hnd.1 (by simpa [he] using List.mem_map_of_mem Prod.fst hmem)
      have hih := ih p (by simpa using hnd.2) hl'
      constructor
      · rw [takeThrough_cons_ne _ _ _ _ hne, hih.1]
      · rw [dropThrough_cons_ne _ _ _ _ hne]
        exact hih.2

theorem commitAll_of_empty : ∀ (n : Nat) (j : Journal), j.changesets = [] →
    commitAll n j = j := by
  intro n j h
  cases n with
  | zero => rfl
  | succ m => simp [commitAll, h]

theorem flatten_flatData (j : Journal) : j.flatten.flatData = j.flatData := by
  unfold Journal.flatten Journal.flatData
  simp

theorem flatten_of_empty (j : Journal) (h : j.changesets = []) : j.flatten = j := by
  cases j with
  | mk b cs =>
    simp only [Journal.mk.injEq] at h ⊢
    subst h
    unfold Journal.flatten Journal.flatData
    simp

theorem commit_last (j : Journal) (p : ChangesetId × LayerData)
    (hnd : j.changesetIds.Nodup) (hp : j.changesets.getLast? = some p) :
    j.commit p.1 = Except.ok j.flatten := by
  have htd := takeThrough_getLast j.changesets p hnd hp
  have hhas : j.hasChangeset p.1 = true := by
    rw [hasChangeset_iff]
    exact List.mem_map_of_mem Prod.fst (mem_of_getLastEq hp)
  unfold Journal.commit
  simp only [hhas, if_true, htd.1, htd.2]
  rfl

/-! ## The claims -/

/-- C1: for every finite sequence of sets, tolerated deletes and records
applied to a freshly constructed journaled store over an initially empty
backing store, the backing store is still empty before the flush, and
applying the store's diff to a fresh empty store yields exactly the key/value
contents the backing store holds after `persist()`. -/
theorem c1_diff_roundtrip (ops : List Op) :
    (applyOps ops freshDB).wrapped = Store.empty ∧
    (∀ k,
      Store.get (Diff.applyTo (JournalDB.diff (applyOps ops freshDB)) Store.empty) k =
        Store.get ((applyOps ops freshDB).persist).wrapped k) := by
  have hw : (applyOps ops freshDB).wrapped = Store.empty := applyOps_wrapped ops freshDB
  refine ⟨hw, fun k => ?_⟩
  show _ = Store.get
    (Diff.applyTo (applyOps ops freshDB).journal.diff (applyOps ops freshDB).wrapped) k
  rw [hw]
  rfl

/-- C4: after `persist()` on any journal state, no changeset identifier is
tracked, the layer stack is reset to a single empty base layer, and for every
key the backing store holds exactly what the journaled store's `get` answered
immediately before the persist (keys whose `get` failed as not-found are
absent, including previously backed keys that were tombstoned). -/
theorem c4_persist_flush_then_reset (db : JournalDB) :
    (∀ id, (db.persist).hasChangeset id = false) ∧
    (db.persist).journal = Journal.empty ∧
    (∀ k, (db.persist).wrapped.get k = db.get k) := by
  refine ⟨fun id => ?_, rfl, fun k => persist_wrapped_get db k⟩
  simp [JournalDB.persist, JournalDB.hasChangeset, Journal.hasChangeset,
    Journal.changesetIds, Journal.empty]

/-- C5: when the topmost layer entry for a key is a tombstone, `get` fails as
not-found and `exists` is false, whatever the backing store holds — the
backing store is never consulted (the answer is the same for every backing
store). -/
theorem c5_tombstone_precedence (db : JournalDB) (k : Key)
    (h : db.journal.getSlot k = some ValueSlot.deleted) :
    db.get k = none ∧ db.existsKey k = false ∧
    (∀ w : Store, (JournalDB.mk db.journal w).get k = none) := by
  have hg : ∀ w : Store, (JournalDB.mk db.journal w).get k = none := by
    intro w
    simp [JournalDB.get, h]
  refine ⟨hg db.wrapped, ?_, hg⟩
  have h0 : db.get k = none := hg db.wrapped
  simp [JournalDB.existsKey, h0]

theorem c5_witness :
    (JournalDB.mk (Journal.mk [(1, ValueSlot.deleted)] [])
        (Store.mk [(1, 5)])).journal.getSlot 1 = some ValueSlot.deleted ∧
    ((JournalDB.mk (Journal.mk [(1, ValueSlot.deleted)] []) (Store.mk [(1, 5)])).get 1 = none ∧
      (JournalDB.mk (Journal.mk [(1, ValueSlot.deleted)] [])
        (Store.mk [(1, 5)])).existsKey 1 = false ∧
      (∀ w : Store,
        (JournalDB.mk
          (JournalDB.mk (Journal.mk [(1, ValueSlot.deleted)] [])
            (Store.mk [(1, 5)])).journal w).get 1 = none)) :=
  ⟨by decide, c5_tombstone_precedence _ 1 (by decide)⟩

/-- C8: for a key with no entry (neither `Set` nor `Deleted`) in any layer,
`get` answers exactly what the backing store answers — its value when
present, a key-not-found failure when absent. -/
theorem c8_get_falls_through (db : JournalDB) (k : Key)
    (h : db.journal.getSlot k = none) :
    db.get k = db.wrapped.get k ∧
    (∀ v, db.wrapped.get k = some v → db.get k = some v) ∧
    (db.wrapped.get k = none → db.get k = none) := by
  have h0 : db.get k = db.wrapped.get k := by
    simp [JournalDB.get, h]
  exact ⟨h0, fun v hv => h0.trans hv, fun hv => h0.trans hv⟩

theorem c8_witness :
    (JournalDB.mk Journal.empty (Store.mk [(1, 7)])).journal.getSlot 1 = none ∧
    ((JournalDB.mk Journal.empty (Store.mk [(1, 7)])).get 1 =
        (JournalDB.mk Journal.empty (Store.mk [(1, 7)])).wrapped.get 1 ∧
      (∀ v, (JournalDB.mk Journal.empty (Store.mk [(1, 7)])).wrapped.get 1 = some v →
        (JournalDB.mk Journal.empty (Store.mk [(1, 7)])).get 1 = some v) ∧
      ((JournalDB.mk Journal.empty (Store.mk [(1, 7)])).wrapped.get 1 = none →
        (JournalDB.mk Journal.empty (Store.mk [(1, 7)])).get 1 = none)) :=
  ⟨by decide, c8_get_falls_through _ 1 (by decide)⟩

/-- C9: deleting a key that is already tombstoned, or absent from both the
layers and the backing store, succeeds silently: no error is possible, every
`get` result is unchanged, the key still reads as not-found, and the backing
store is untouched. -/
theorem c9_delete_silent (db : JournalDB) (k : Key)
    (h : db.existsKey k = false) :
    (∀ k', (db.delete k).get k' = db.get k') ∧
    (db.delete k).existsKey k = false ∧
    (db.delete k).wrapped = db.wrapped := by
  have hnone : db.get k = none := by
    cases hg : db.get k with
    | none => rfl
    | some v => rw [JournalDB.existsKey, hg] at h; simp at h
  have hget : ∀ k', (db.delete k).get k' = db.get k' := by
    intro k'
    by_cases hk : k = k'
    · subst hk
      have h1 : (db.delete k).get k = none := by
        rw [get_eq_slotApply]
        show slotApply ((db.journal.writeSlot k .deleted).getSlot k) _ = none
        rw [getSlot_writeSlot, if_pos rfl]
        rfl
      rw [h1, hnone]
    · rw [get_eq_slotApply, get_eq_slotApply]
      show slotApply ((db.journal.writeSlot k .deleted).getSlot k') _ = _
      rw [getSlot_writeSlot, if_neg hk]
      rfl
  refine ⟨hget, ?_, rfl⟩
  simp [JournalDB.existsKey, hget k, hnone]

theorem c9_witness :
    freshDB.existsKey 1 = false ∧
    ((∀ k', (freshDB.delete 1).get k' = freshDB.get k') ∧
      (freshDB.delete 1).existsKey 1 = false ∧
      (freshDB.delete 1).wrapped = freshDB.wrapped) :=
  ⟨by decide, c9_delete_silent freshDB 1 (by decide)⟩

/-- C10: mapping-style deletion of a key absent from every layer and from the
backing store fails with a key error, and the tolerated form of that delete
(the way the test driver issues it) leaves the store exactly as it was, so
`get`, `diff` and a later `persist` behave as if the delete had never been
attempted. -/
theorem c10_delitem_keyerror (db : JournalDB) (k : Key)
    (h1 : db.journal.getSlot k = none) (h2 : db.wrapped.get k = none) :
    db.delItem k = Except.error () ∧ db.delTolerant k = db := by
  have hex : db.existsKey k = false := by
    simp [JournalDB.existsKey, JournalDB.get, h1, h2]
  constructor
  · simp [JournalDB.delItem, hex]
  · simp [JournalDB.delTolerant, JournalDB.delItem, hex]

theorem c10_witness :
    freshDB.journal.getSlot 3 = none ∧ freshDB.wrapped.get 3 = none ∧
    (freshDB.delItem 3 = Except.error () ∧ freshDB.delTolerant 3 = freshDB) :=
  ⟨by decide, by decide, c10_delitem_keyerror freshDB 3 (by decide) (by decide)⟩

/-- C2: once `record()` has returned the changeset `c`, any sequence of sets,
deletes and further records followed by `discard(c)` restores the store to
exactly the state before the `record` call: every `get` result (success or
not-found alike) is as before, the layer tagged `c` and every layer above it
are gone, and every identifier of a removed layer is untracked. -/
theorem c2_discard_rollback (db : JournalDB) (c : ChangesetId) (ops : List Op)
    (h : db.hasChangeset c = false) :
    ∃ db1, db.record c = Except.ok db1 ∧
      ∃ db2, (applyOps ops db1).discard c = Except.ok db2 ∧
        db2 = db ∧
        (∀ k, db2.get k = db.get k) ∧
        (∀ id, db2.hasChangeset id = db.hasChangeset id) ∧
        db2.hasChangeset c = false ∧
        (∀ id, db.hasChangeset id = false → db2.hasChangeset id = false) := by
  have h' : db.journal.hasChangeset c = false := h
  have hrec : db.record c =
      Except.ok ⟨⟨db.journal.base, (c, []) :: db.journal.changesets⟩, db.wrapped⟩ := by
    simp [JournalDB.record, Journal.record, h', Except.map, pushLayer]
  refine ⟨_, hrec, ?_⟩
  obtain ⟨pre', d', hp', heq⟩ :=
    applyOps_shape db.wrapped c db.journal.base db.journal.changesets ops [] [] (by simp)
  have heq' : applyOps ops ⟨⟨db.journal.base, (c, []) :: db.journal.changesets⟩, db.wrapped⟩ =
      ⟨⟨db.journal.base, pre' ++ (c, d') :: db.journal.changesets⟩, db.wrapped⟩ := heq
  have hmem : Journal.hasChangeset
      ⟨db.journal.base, pre' ++ (c, d') :: db.journal.changesets⟩ c = true := by
    rw [hasChangeset_iff]
    simp [Journal.changesetIds]
  have hdrop := dropThrough_notMem c d' db.journal.changesets pre' hp'
  have hdisc :
      (applyOps ops ⟨⟨db.journal.base, (c, []) :: db.journal.changesets⟩, db.wrapped⟩).discard c
        = Except.ok db := by
    rw [heq']
    simp [JournalDB.discard, Journal.discard, hmem, Except.map, hdrop]
  exact ⟨db, hdisc, rfl, fun k => rfl, fun id => rfl, h, fun id hid => hid⟩

theorem c2_witness :
    freshDB.hasChangeset 1 = false ∧
    (∃ db1, freshDB.record 1 = Except.ok db1 ∧
      ∃ db2, (applyOps [Op.setKV 1 2, Op.del 1, Op.record 2, Op.delMapping 3] db1).discard 1
          = Except.ok db2 ∧
        db2 = freshDB ∧
        (∀ k, db2.get k = freshDB.get k) ∧
        (∀ id, db2.hasChangeset id = freshDB.hasChangeset id) ∧
        db2.hasChangeset 1 = false ∧
        (∀ id, freshDB.hasChangeset id = false → db2.hasChangeset id = false)) :=
  ⟨by decide,
    c2_discard_rollback freshDB 1 [Op.setKV 1 2, Op.del 1, Op.record 2, Op.delMapping 3]
      (by decide)⟩

/-- C3: committing any currently tracked changeset leaves the observable
state unchanged — every `get` result and the diff are the same before and
after — while untracking the committed identifier and every identifier above
it; every identifier strictly below (in particular the destination layer's
own identifier, when it is not the base) remains tracked. -/
theorem c3_commit_preserves (db : JournalDB) (id : ChangesetId)
    (h : db.hasChangeset id = true) (hnd : db.journal.changesetIds.Nodup) :
    ∃ db', db.commit id = Except.ok db' ∧
      (∀ k, db'.get k = db.get k) ∧
      db'.diff = db.diff ∧
      db'.wrapped = db.wrapped ∧
      db'.hasChangeset id = false ∧
      (∀ x, x ∈ (takeThrough id db.journal.changesets).map Prod.fst →
        db'.hasChangeset x = false) ∧
      (∀ x, x ∈ (dropThrough id db.journal.changesets).map Prod.fst →
        db'.hasChangeset x = true) := by
  have h' : db.journal.hasChangeset id = true := h
  obtain ⟨j', hok, hflat, hids, hbase⟩ := commit_ok db.journal id h'
  refine ⟨⟨j', db.wrapped⟩, ?_, ?_, ?_, rfl, ?_, ?_, ?_⟩
  · simp [JournalDB.commit, hok, Except.map]
  · intro k
    rw [get_eq_slotApply, get_eq_slotApply]
    show slotApply (j'.getSlot k) (db.wrapped.get k) = _
    rw [getSlot_eq_flat, getSlot_eq_flat, hflat]
  · show j'.diff = db.journal.diff
    exact diff_congr hflat
  · show j'.hasChangeset id = false
    rw [hasChangeset_false_iff]
    show id ∉ j'.changesetIds
    rw [hids]
    exact takeDrop_disjoint db.journal id hnd id
      (id_mem_takeThrough id db.journal.changesets ((hasChangeset_iff _ id).mp h'))
  · intro x hx
    show j'.hasChangeset x = false
    rw [hasChangeset_false_iff]
    show x ∉ j'.changesetIds
    rw [hids]
    exact takeDrop_disjoint db.journal id hnd x hx
  · intro x hx
    show j'.hasChangeset x = true
    rw [hasChangeset_iff]
    show x ∈ j'.changesetIds
    rw [hids]
    exact hx

theorem c3_witness :
    (JournalDB.mk (Journal.mk [(1, ValueSlot.set 10)]
        [(3, [(1, ValueSlot.set 12)]), (2, [(1, ValueSlot.set 11)])])
        (Store.mk [])).hasChangeset 2 = true ∧
    (JournalDB.mk (Journal.mk [(1, ValueSlot.set 10)]
        [(3, [(1, ValueSlot.set 12)]), (2, [(1, ValueSlot.set 11)])])
        (Store.mk [])).journal.changesetIds.Nodup ∧
    (∃ db', (JournalDB.mk (Journal.mk [(1, ValueSlot.set 10)]
        [(3, [(1, ValueSlot.set 12)]), (2, [(1, ValueSlot.set 11)])])
        (Store.mk [])).commit 2 = Except.ok db' ∧
      (∀ k, db'.get k = (JournalDB.mk (Journal.mk [(1, ValueSlot.set 10)]
        [(3, [(1, ValueSlot.set 12)]), (2, [(1, ValueSlot.set 11)])])
        (Store.mk [])).get k) ∧
      db'.diff = (JournalDB.mk (Journal.mk [(1, ValueSlot.set 10)]
        [(3, [(1, ValueSlot.set 12)]), (2, [(1, ValueSlot.set 11)])])
        (Store.mk [])).diff ∧
      db'.wrapped = (JournalDB.mk (Journal.mk [(1, ValueSlot.set 10)]
        [(3, [(1, ValueSlot.set 12)]), (2, [(1, ValueSlot.set 11)])])
        (Store.mk [])).wrapped ∧
      db'.hasChangeset 2 = false ∧
      (∀ x, x ∈ (takeThrough 2 (JournalDB.mk (Journal.mk [(1, ValueSlot.set 10)]
        [(3, [(1, ValueSlot.set 12)]), (2, [(1, ValueSlot.set 11)])])
        (Store.mk [])).journal.changesets).map Prod.fst → db'.hasChangeset x = false) ∧
      (∀ x, x ∈ (dropThrough 2 (JournalDB.mk (Journal.mk [(1, ValueSlot.set 10)]
        [(3, [(1, ValueSlot.set 12)]), (2, [(1, ValueSlot.set 11)])])
        (Store.mk [])).journal.changesets).map Prod.fst → db'.hasChangeset x = true)) :=
  ⟨by decide, by decide, c3_commit_preserves _ 2 (by decide) (by decide)⟩

/-- C6: recording an identifier equal to any currently tracked one — however
deep in the stack — fails with the duplicate-changeset error (no successor
state is produced, so the stack is unchanged), and recording that same
identifier succeeds again after it has been discarded, committed, or
persisted away. -/
theorem c6_record_uniqueness (db : JournalDB) (id : ChangesetId)
    (h : db.hasChangeset id = true) (hnd : db.journal.changesetIds.Nodup) :
    db.record id = Except.error JournalError.duplicateChangeset ∧
    (∀ db', db.discard id = Except.ok db' → ∃ db'', db'.record id = Except.ok db'') ∧
    (∀ db', db.commit id = Except.ok db' → ∃ db'', db'.record id = Except.ok db'') ∧
    (∃ db'', (db.persist).record id = Except.ok db'') := by
  have h' : db.journal.hasChangeset id = true := h
  have hmemT : id ∈ (takeThrough id db.journal.changesets).map Prod.fst :=
    id_mem_takeThrough id db.journal.changesets ((hasChangeset_iff _ id).mp h')
  have hnotdrop : id ∉ (dropThrough id db.journal.changesets).map Prod.fst :=
    takeDrop_disjoint db.journal id hnd id hmemT
  refine ⟨?_, ?_, ?_, ?_⟩
  · simp [JournalDB.record, Journal.record, h', Except.map]
  · intro db' hdb'
    have hval : db' = ⟨⟨db.journal.base, dropThrough id db.journal.changesets⟩, db.wrapped⟩ := by
      simp [JournalDB.discard, Journal.discard, h', Except.map] at hdb'
      exact hdb'.symm
    subst hval
    have hf : Journal.hasChangeset
        ⟨db.journal.base, dropThrough id db.journal.changesets⟩ id = false := by
      rw [hasChangeset_false_iff]
      simpa [Journal.changesetIds] using hnotdrop
    exact ⟨⟨pushLayer ⟨db.journal.base, dropThrough id db.journal.changesets⟩ id, db.wrapped⟩,
      by simp [JournalDB.record, Journal.record, hf, Except.map]⟩
  · intro db' hdb'
    obtain ⟨j', hok, _, hids, _⟩ := commit_ok db.journal id h'
    have hval : db' = ⟨j', db.wrapped⟩ := by
      rw [JournalDB.commit, hok] at hdb'
      simpa [Except.map] using hdb'.symm
    subst hval
    have hf : j'.hasChangeset id = false := by
      rw [hasChangeset_false_iff]
      show id ∉ j'.changesetIds
      rw [hids]
      exact hnotdrop
    exact ⟨⟨pushLayer j' id, db.wrapped⟩,
      by simp [JournalDB.record, Journal.record, hf, Except.map]⟩
  · have hf : Journal.hasChangeset Journal.empty id = false := by
      simp [Journal.hasChangeset, Journal.changesetIds, Journal.empty]
    exact ⟨⟨pushLayer Journal.empty id, Diff.applyTo db.journal.diff db.wrapped⟩,
      by simp [JournalDB.record, JournalDB.persist, Journal.record, hf, Except.map]⟩

theorem c6_witness :
    (JournalDB.mk (Journal.mk [] [(4, []), (9, [])]) (Store.mk [])).hasChangeset 9 = true ∧
    (JournalDB.mk (Journal.mk [] [(4, []), (9, [])]) (Store.mk [])).journal.changesetIds.Nodup ∧
    ((JournalDB.mk (Journal.mk [] [(4, []), (9, [])]) (Store.mk [])).record 9
        = Except.error JournalError.duplicateChangeset ∧
      (∀ db', (JournalDB.mk (Journal.mk [] [(4, []), (9, [])]) (Store.mk [])).discard 9
          = Except.ok db' → ∃ db'', db'.record 9 = Except.ok db'') ∧
      (∀ db', (JournalDB.mk (Journal.mk [] [(4, []), (9, [])]) (Store.mk [])).commit 9
          = Except.ok db' → ∃ db'', db'.record 9 = Except.ok db'') ∧
      (∃ db'',
        ((JournalDB.mk (Journal.mk [] [(4, []), (9, [])]) (Store.mk [])).persist).record 9
          = Except.ok db'')) :=
  ⟨by decide, by decide, c6_record_uniqueness _ 9 (by decide) (by decide)⟩

/-- C7: `flatten()` equals the result of repeatedly committing the oldest
tracked changeset until none remain; afterwards no identifier is tracked,
every `get` result is unchanged, the backing store is untouched, and with
zero tracked changesets `flatten` is a no-op. -/
theorem c7_flatten_equiv (db : JournalDB) (hnd : db.journal.changesetIds.Nodup) :
    db.flatten.journal = flattenSpec db.journal ∧
    (∀ id, db.flatten.hasChangeset id = false) ∧
    (∀ k, db.flatten.get k = db.get k) ∧
    db.flatten.wrapped = db.wrapped ∧
    (db.journal.changesets = [] → db.flatten = db) := by
  have hmain : db.journal.flatten = flattenSpec db.journal := by
    cases hcs : db.journal.changesets with
    | nil =>
      have hspec : flattenSpec db.journal = db.journal := by
        unfold flattenSpec
        rw [hcs]
        rfl
      rw [hspec]
      exact flatten_of_empty db.journal hcs
    | cons a t =>
      have hlen : db.journal.changesets.length = t.length + 1 := by rw [hcs]; rfl
      obtain ⟨p, hp⟩ : ∃ p, db.journal.changesets.getLast? = some p := by
        rw [hcs]
        exact ⟨_, List.getLast?_eq_getLast_of_ne_nil (by simp)⟩
      rcases p with ⟨pid, pd⟩
      have hcl : db.journal.commit pid = Except.ok db.journal.flatten :=
        commit_last db.journal (pid, pd) hnd hp
      have hone : commitOldest db.journal = db.journal.flatten := by
        unfold commitOldest
        rw [hp]
        show (match db.journal.commit pid with
          | .ok j' => j'
          | .error _ => db.journal) = db.journal.flatten
        rw [hcl]
      have hstep : flattenSpec db.journal = commitAll t.length (commitOldest db.journal) := by
        unfold flattenSpec
        rw [hlen]
        show (if db.journal.changesets.isEmpty then db.journal
          else commitAll t.length (commitOldest db.journal)) = _
        rw [hcs]
        simp
      rw [hstep, hone]
      exact (commitAll_of_empty t.length db.journal.flatten rfl).symm
  refine ⟨hmain, ?_, ?_, rfl, ?_⟩
  · intro id
    simp [JournalDB.flatten, JournalDB.hasChangeset, Journal.flatten,
      Journal.hasChangeset, Journal.changesetIds]
  · intro k
    rw [get_eq_slotApply, get_eq_slotApply]
    show slotApply (db.journal.flatten.getSlot k) (db.wrapped.get k) = _
    rw [getSlot_eq_flat, getSlot_eq_flat, flatten_flatData]
  · intro hempty
    show { db with journal := db.journal.flatten } = db
    rw [flatten_of_empty db.journal hempty]

theorem c7_witness :
    (JournalDB.mk (Journal.mk [(1, ValueSlot.set 10)]
        [(2, []), (1, [(5, ValueSlot.set 9)])]) (Store.mk [])).journal.changesetIds.Nodup ∧
    ((JournalDB.mk (Journal.mk [(1, ValueSlot.set 10)]
        [(2, []), (1, [(5, ValueSlot.set 9)])]) (Store.mk [])).flatten.journal
        = flattenSpec (JournalDB.mk (Journal.mk [(1, ValueSlot.set 10)]
          [(2, []), (1, [(5, ValueSlot.set 9)])]) (Store.mk [])).journal ∧
      (∀ id, (JournalDB.mk (Journal.mk [(1, ValueSlot.set 10)]
        [(2, []), (1, [(5, ValueSlot.set 9)])]) (Store.mk [])).flatten.hasChangeset id
          = false) ∧
      (∀ k, (JournalDB.mk (Journal.mk [(1, ValueSlot.set 10)]
        [(2, []), (1, [(5, ValueSlot.set 9)])]) (Store.mk [])).flatten.get k
          = (JournalDB.mk (Journal.mk [(1, ValueSlot.set 10)]
            [(2, []), (1, [(5, ValueSlot.set 9)])]) (Store.mk [])).get k) ∧
      (JournalDB.mk (Journal.mk [(1, ValueSlot.set 10)]
        [(2, []), (1, [(5, ValueSlot.set 9)])]) (Store.mk [])).flatten.wrapped
        = (JournalDB.mk (Journal.mk [(1, ValueSlot.set 10)]
          [(2, []), (1, [(5, ValueSlot.set 9)])]) (Store.mk [])).wrapped ∧
      ((JournalDB.mk (Journal.mk [(1, ValueSlot.set 10)]
        [(2, []), (1, [(5, ValueSlot.set 9)])]) (Store.mk [])).journal.changesets = [] →
        (JournalDB.mk (Journal.mk [(1, ValueSlot.set 10)]
          [(2, []), (1, [(5, ValueSlot.set 9)])]) (Store.mk [])).flatten
          = JournalDB.mk (Journal.mk [(1, ValueSlot.set 10)]
            [(2, []), (1, [(5, ValueSlot.set 9)])]) (Store.mk []))) :=
  ⟨by decide, c7_flatten_equiv _ (by decide)⟩

end JournalSpec
